import Mathlib

/-!
Verification of the LRU (Linear Recurrent Unit) sequence model in
`src/model/lru.py`.

The algorithmic core is `LRULayer.lru_parallel`: a masked, divide-and-conquer
parallel scan computing the diagonal linear recurrence
`s[t] = lambda * s[t-1] * valid[t-1] + h0[t]` in `log2 L` levels.

Embedding conventions:
* A tensor slice of shape `[B, L, D]` is scanned independently per batch
  element; every torch operation in the scan is elementwise over the `B` and
  `D` axes (`lamb`, `h1[:, -1:]` and the mask broadcast positionally), so the
  state at one batch element is modelled as a time-indexed function
  `h : Nat -> R` with values in a commutative ring `R`.  Instantiating `R`
  with the complex numbers gives a single hidden channel; instantiating with
  a product or Pi ring gives the elementwise semantics over all `D` channels
  at once, which is exactly what the broadcasts compute.
* The torch reshape to `(B * L / l, l, D)` splits the time axis of each batch
  element into contiguous blocks of `l = 2 ^ i` positions (blocks never
  straddle a batch boundary because `l` divides the padded length `L = 2^n`).
  Position `t` lies in the block starting at `t / l * l`, at offset `t % l`.
* A boolean mask entry multiplied into a complex tensor is promoted by torch
  to `1` or `0`; this is the `gate` function below.
-/

namespace LRURec

/-- Numeric value of a boolean mask entry: torch promotes a boolean tensor
factor inside a complex product to `1` (true) or `0` (false). -/
def gate {R : Type} [CommRing R] (b : Bool) : R := if b then 1 else 0

/-- Embedding of the line `if i > 1: lamb = torch.cat((lamb, lamb * lamb[-1]), 0)`
of `LRULayer.lru_parallel`: at every level after the first, the carried vector
of eigenvalue powers is extended by multiplying each entry with its last
entry and concatenating. -/
def extendLamb {R : Type} [CommRing R] (i : ℕ) (lamb : List R) : List R :=
  if 1 < i then lamb ++ lamb.map (fun z => z * lamb.getLastD 0) else lamb

/-- Embedding of `LRULayer.lru_parallel(i, h, lamb, mask, B, L, D)` for one
batch element.  With `l = 2 ^ i`, the time axis is viewed in blocks of `l`
positions; the first half of each block is returned unchanged, and offset
`r >= l / 2` of a block receives the carry
`lamb[r - l/2] * h[boundary] * mask[boundary]` where `boundary` is the last
position of the first half of the block (the torch line
`h2 = h2 + lamb * h1[:, -1:] * mask_[:, l//2-1:l//2].unsqueeze(-1)`).
Returns the updated state together with the (possibly extended) `lamb`,
exactly as the python function returns `h, lamb`. -/
def lru_parallel {R : Type} [CommRing R] (i : ℕ) (h : ℕ → R) (lamb : List R)
    (mask : ℕ → Bool) : (ℕ → R) × List R :=
  let l := 2 ^ i
  let lamb2 := extendLamb i lamb
  (fun t =>
    if t % l < l / 2 then h t
    else
      h t + lamb2.getD (t % l - l / 2) 0 * h (t / l * l + l / 2 - 1) *
        gate (mask (t / l * l + l / 2 - 1)),
   lamb2)

/-- Embedding of the scan loop of `LRULayer.forward`:
`for i in range(log2_L): h, lamb = self.lru_parallel(i + 1, h, lamb, mask, B, L, D)`.
`lruScan n h0 lamb0 mask` runs levels `1, 2, ..., n` starting from the driving
input `h0` and the initial eigenvalue vector `lamb0`. -/
def lruScan {R : Type} [CommRing R] (n : ℕ) (h0 : ℕ → R) (lamb0 : List R)
    (mask : ℕ → Bool) : (ℕ → R) × List R :=
  match n with
  | 0 => (h0, lamb0)
  | Nat.succ m =>
    let p := lruScan m h0 lamb0 mask
    lru_parallel (m + 1) p.1 p.2 mask

/-- The naive sequential recurrence the scan is specified against:
`s[t] = lambda * s[t-1] * valid[t-1] + h0[t]` with `s[-1] = 0`. -/
def lruSeq {R : Type} [CommRing R] (lam : R) (mask : ℕ → Bool) (h0 : ℕ → R) : ℕ → R
  | 0 => h0 0
  | Nat.succ t => lam * lruSeq lam mask h0 t * gate (mask t) + h0 (t + 1)

/-- The eigenvalue powers carried at a given level, as described by the spec:
`powList lam m = [lam^1, lam^2, ..., lam^m]`. -/
def powList {R : Type} [CommRing R] (lam : R) (m : ℕ) : List R :=
  (List.range m).map fun k => lam ^ (k + 1)

/-- The carried `lamb` after `n` levels depends only on the level count and
the initial vector; `scanLamb` computes it directly. -/
def scanLamb {R : Type} [CommRing R] (n : ℕ) (lamb0 : List R) : List R :=
  match n with
  | 0 => lamb0
  | Nat.succ m => extendLamb (m + 1) (scanLamb m lamb0)

/-- A mask is a left-padding mask when validity is upward closed along time:
every position at or after a valid position is valid (equivalently, the
invalid positions form a prefix). -/
def MonoMask (mask : ℕ → Bool) : Prop :=
  ∀ j k : ℕ, j ≤ k → mask j = true → mask k = true

/-- Closed form of the masked recurrence restarted with zero state at
position `b`: the value at `t` collects `h0 t` plus every contribution
`lam ^ (t - j) * h0 j` from a valid position `j` in `[b, t)`. -/
def scanClosed {R : Type} [CommRing R] (lam : R) (mask : ℕ → Bool) (h0 : ℕ → R)
    (b t : ℕ) : R :=
  h0 t + ∑ j ∈ (Finset.Ico b t).filter (fun j => mask j = true), lam ^ (t - j) * h0 j

/-- Embedding of `nu_log = torch.log(-0.5 * torch.log(u1 * (r_max ** 2 - r_min ** 2) + r_min ** 2))`
from `LRULayer.__init__`, as a function of the uniform draw `u1`. -/
noncomputable def nu_log (rmin rmax u1 : ℝ) : ℝ :=
  Real.log (-(0.5) * Real.log (u1 * (rmax ^ 2 - rmin ^ 2) + rmin ^ 2))

/-- Embedding of `theta_log = torch.log(u2 * torch.tensor(np.pi) * 2)` from
`LRULayer.__init__`, as a function of the uniform draw `u2`. -/
noncomputable def theta_log (u2 : ℝ) : ℝ := Real.log (u2 * Real.pi * 2)

/-- The rotation `torch.exp(theta_log)` used as the imaginary part of the
initial eigenvalue.  Over IEEE floats `log 0 = -inf` and `exp (-inf) = 0`,
so the composition `exp (log x)` maps `0` to `0` and every positive `x` to
itself; Mathlib assigns the junk value `Real.log 0 = 0`, so the zero case is
split off explicitly to keep the embedding faithful to the float
semantics of these two source lines. -/
noncomputable def init_rotation (u2 : ℝ) : ℝ :=
  if u2 * Real.pi * 2 = 0 then 0 else Real.exp (theta_log u2)

/-- Embedding of
`diag_lambda = torch.exp(torch.complex(-torch.exp(nu_log), torch.exp(theta_log)))`
from `LRULayer.__init__`. -/
noncomputable def diag_lambda (rmin rmax u1 u2 : ℝ) : ℂ :=
  Complex.exp ⟨-Real.exp (nu_log rmin rmax u1), init_rotation u2⟩

/-- Embedding of the eigenvalue recomputed per channel in `LRULayer.forward`
from the trainable log-parameters:
`nu, theta, gamma = torch.exp(self.params_log).split((1, 1, 1))` followed by
`lamb = torch.exp(torch.complex(-nu, theta))`. -/
noncomputable def forward_lambda (nuLog thetaLog : ℝ) : ℂ :=
  Complex.exp ⟨-Real.exp nuLog, Real.exp thetaLog⟩

/-- Amount of left padding applied by `LRUModel.forward`:
`2 ** int(np.ceil(np.log2(seq_len))) - seq_len`, with the ceiling base-2
logarithm embedded as `Nat.clog 2`. -/
def padLen (L : ℕ) : ℕ := 2 ^ Nat.clog 2 L - L

/-- Embedding of `x = F.pad(x, (0, 0, 2 ** log2_L - x.size(1), 0, 0, 0))`:
the time axis of the value tensor is left-padded with zeros up to the next
power of two. -/
def padSeq {α : Type} [Zero α] (v : List α) : List α :=
  List.replicate (padLen v.length) 0 ++ v

/-- Embedding of `mask_ = F.pad(mask, (2 ** log2_L - mask.size(1), 0, 0, 0))`:
the mask is left-padded with `false`. -/
def padMask (m : List Bool) : List Bool :=
  List.replicate (padLen m.length) false ++ m

/-- Embedding of the final truncation `x = x[:, -seq_len:]` of
`LRUModel.forward`: keep the trailing `L` time positions. -/
def truncSeq {α : Type} (L : ℕ) (v : List α) : List α := v.drop (v.length - L)

/-- Embedding of `LRULayer.forward`.  `d` is the model width, `H` the hidden
width; the affine maps `in_proj` and `out_proj` and the `dropout` and
`layer_norm` modules are stored in the layer object and appear here as
function arguments; `n = int(np.ceil(np.log2(h.size(1))))` is the level
count of the scan loop.  The hidden state type is the Pi ring
`Fin H → ℂ`, matching the elementwise broadcasting over channels. -/
noncomputable def LRULayer_forward (d H : ℕ) (params_log : Fin 3 → Fin H → ℝ)
    (in_proj : (Fin d → ℂ) → Fin H → ℂ) (out_proj : (Fin H → ℂ) → Fin d → ℂ)
    (dropout : (ℕ → Fin d → ℝ) → ℕ → Fin d → ℝ)
    (layer_norm : (ℕ → Fin d → ℝ) → ℕ → Fin d → ℝ)
    (n : ℕ) (x : ℕ → Fin d → ℝ) (mask : ℕ → Bool) : ℕ → Fin d → ℝ :=
  let gamma : Fin H → ℝ := fun c => Real.exp (params_log 2 c)
  let lamb : Fin H → ℂ := fun c => forward_lambda (params_log 0 c) (params_log 1 c)
  let h0 : ℕ → Fin H → ℂ := fun t c => in_proj (fun j => (x t j : ℂ)) c * (gamma c : ℂ)
  let h := (lruScan n h0 [lamb] mask).1
  layer_norm (fun t j => dropout (fun s i => (out_proj (h s) i).re) t j + x t j)

/-- Driving input used in concrete instances: the impulse `(1, 0, 0, 0, ...)`. -/
def impulse {R : Type} [CommRing R] : ℕ → R := fun t => if t = 0 then 1 else 0

/-- The non-monotone mask `(valid, valid, invalid, valid)` of the C1
counterexample, extended by `valid` beyond `t = 3`. -/
def maskCex : ℕ → Bool := fun t => decide (t ≠ 2)

/-- The left-padding mask `(invalid, invalid, valid, valid, ...)` with two
padded positions. -/
def maskPad2 : ℕ → Bool := fun t => decide (2 ≤ t)

/-- A concrete input for the padding-invariance witness: junk values 5 and 7
at the two padded positions. -/
def hJunkA : ℕ → ℚ := fun t =>
  if t = 0 then 5 else if t = 1 then 7 else if t = 2 then 1 else if t = 3 then 2 else 0

/-- A second concrete input agreeing with `hJunkA` on every valid position of
`maskPad2` but not at the padded positions. -/
def hJunkB : ℕ → ℚ := fun t =>
  if t = 0 then -3 else if t = 1 then 11 else if t = 2 then 1 else if t = 3 then 2 else 0

/-- The C5 scenario driving input: channel 0 carries the impulse
`(1, 0, 0, 0)`, channel 1 carries an arbitrary signal `c`. -/
def h0Scenario (c : ℕ → ℂ) : ℕ → ℂ × ℂ := fun t => (impulse t, c t)

/-- The C5 scenario eigenvalue pair `(0.5 + 0.0i, 0.0 + 0.5i)`. -/
noncomputable def lamScenario : ℂ × ℂ := (1 / 2, Complex.I / 2)

section ScanLemmas

variable {R : Type} [CommRing R]

lemma lruScan_snd (n : ℕ) (h0 : ℕ → R) (lamb0 : List R) (mask : ℕ → Bool) :
    (lruScan n h0 lamb0 mask).2 = scanLamb n lamb0 := by
  induction n with
  | zero => rfl
  | succ m ih => simp [lruScan, lru_parallel, scanLamb, ih]

lemma lruScan_succ_fst (n : ℕ) (h0 : ℕ → R) (lamb0 : List R) (mask : ℕ → Bool)
    (t : ℕ) :
    (lruScan (n + 1) h0 lamb0 mask).1 t =
      (if t % 2 ^ (n + 1) < 2 ^ (n + 1) / 2 then (lruScan n h0 lamb0 mask).1 t
       else
        (lruScan n h0 lamb0 mask).1 t +
          (scanLamb (n + 1) lamb0).getD (t % 2 ^ (n + 1) - 2 ^ (n + 1) / 2) 0 *
            (lruScan n h0 lamb0 mask).1
              (t / 2 ^ (n + 1) * 2 ^ (n + 1) + 2 ^ (n + 1) / 2 - 1) *
            gate (mask (t / 2 ^ (n + 1) * 2 ^ (n + 1) + 2 ^ (n + 1) / 2 - 1))) := by
  simp [lruScan, lru_parallel, lruScan_snd, scanLamb]

lemma powList_concat (lam : R) (m : ℕ) :
    powList lam (m + 1) = powList lam m ++ [lam ^ (m + 1)] := by
  simp [powList, List.range_succ]

lemma powList_getLastD (lam : R) (m : ℕ) (hm : 1 ≤ m) :
    (powList lam m).getLastD 0 = lam ^ m := by
  obtain ⟨k, rfl⟩ := Nat.exists_eq_add_of_le hm
  rw [Nat.add_comm 1 k, powList_concat]
  simp

lemma powList_getD (lam : R) (m k : ℕ) (hk : k < m) :
    (powList lam m).getD k 0 = lam ^ (k + 1) := by
  simp [powList, List.getD, hk]

lemma extendLamb_powList (lam : R) (i m : ℕ) (hi : 1 < i) (hm : 1 ≤ m) :
    extendLamb i (powList lam m) = powList lam (2 * m) := by
  rw [extendLamb, if_pos hi, powList_getLastD lam m hm]
  rw [show 2 * m = m + m by ring]
  rw [powList, powList, List.range_add, List.map_append, List.map_map, List.map_map]
  congr 1
  refine List.map_congr_left fun k _ => ?_
  simp only [Function.comp_apply]
  ring

lemma scanLamb_powList (lam : R) (n : ℕ) (hn : 1 ≤ n) :
    scanLamb n [lam] = powList lam (2 ^ (n - 1)) := by
  induction n with
  | zero => omega
  | succ m ih =>
    rcases Nat.eq_or_lt_of_le hn with h1 | h1
    · obtain rfl : m = 0 := by omega
      have h2 : powList lam 1 = [lam] := by
        rw [show (1 : ℕ) = 0 + 1 from rfl, powList_concat]
        simp [powList]
      simp [scanLamb, extendLamb, h2]
    · have hm : 1 ≤ m := by omega
      rw [scanLamb, ih hm, extendLamb_powList lam (m + 1) _ (by omega) Nat.one_le_two_pow]
      congr 1
      rw [← pow_succ']
      congr 1
      omega

lemma lruScan_all_false_eq (n : ℕ) (h0 : ℕ → R) (lamb0 : List R) (mask : ℕ → Bool)
    (hm : ∀ t, mask t = false) : ∀ t, (lruScan n h0 lamb0 mask).1 t = h0 t := by
  induction n with
  | zero => intro t; rfl
  | succ m ih =>
    intro t
    rw [lruScan_succ_fst]
    split
    · exact ih t
    · rw [hm, ih t]
      simp [gate]

lemma lruScan_linear (n : ℕ) (lamb0 : List R) (mask : ℕ → Bool)
    (p q : R) (a b : ℕ → R) :
    ∀ t, (lruScan n (fun s => p * a s + q * b s) lamb0 mask).1 t =
      p * (lruScan n a lamb0 mask).1 t + q * (lruScan n b lamb0 mask).1 t := by
  induction n with
  | zero => intro t; rfl
  | succ m ih =>
    intro t
    rw [lruScan_succ_fst, lruScan_succ_fst, lruScan_succ_fst]
    split
    · exact ih t
    · rw [ih t, ih]
      ring

lemma lruScan_zero_input (n : ℕ) (lamb0 : List R) (mask : ℕ → Bool) :
    ∀ t, (lruScan n (fun _ => (0 : R)) lamb0 mask).1 t = 0 := by
  induction n with
  | zero => intro t; rfl
  | succ m ih =>
    intro t
    rw [lruScan_succ_fst]
    split
    · exact ih t
    · rw [ih t, ih]
      ring

lemma lruScan_congr_on_valid (n : ℕ) (lamb0 : List R) (mask : ℕ → Bool)
    (a b : ℕ → R) (hab : ∀ t, mask t = true → a t = b t) :
    ∀ t, mask t = true →
      (lruScan n a lamb0 mask).1 t = (lruScan n b lamb0 mask).1 t := by
  induction n with
  | zero => intro t ht; exact hab t ht
  | succ m ih =>
    intro t ht
    rw [lruScan_succ_fst, lruScan_succ_fst]
    split
    · exact ih t ht
    · rw [ih t ht]
      rcases hb : mask (t / 2 ^ (m + 1) * 2 ^ (m + 1) + 2 ^ (m + 1) / 2 - 1) with _ | _
      · simp [gate]
      · rw [ih _ hb]

end ScanLemmas

section BlockArithmetic

lemma two_pow_succ_div_two (n : ℕ) : 2 ^ (n + 1) / 2 = 2 ^ n := by
  rw [pow_succ]
  exact Nat.mul_div_cancel _ (by norm_num)

lemma block_decomp (n t : ℕ) :
    t = 2 ^ n * (2 * (t / 2 ^ (n + 1))) + t % 2 ^ (n + 1) := by
  conv_lhs => rw [← Nat.div_add_mod t (2 ^ (n + 1))]
  rw [pow_succ]
  ring_nf

lemma block_start_lt (n t : ℕ) (h : t % 2 ^ (n + 1) < 2 ^ n) :
    t / 2 ^ n * 2 ^ n = t / 2 ^ (n + 1) * 2 ^ (n + 1) := by
  have h0 : 0 < 2 ^ n := Nat.pos_pow_of_pos n (by norm_num)
  have hdiv : t / 2 ^ n = 2 * (t / 2 ^ (n + 1)) + t % 2 ^ (n + 1) / 2 ^ n := by
    conv_lhs => rw [block_decomp n t]
    rw [Nat.mul_add_div h0]
  rw [hdiv, Nat.div_eq_of_lt h, pow_succ]
  ring

lemma block_start_ge (n t : ℕ) (h : 2 ^ n ≤ t % 2 ^ (n + 1)) :
    t / 2 ^ n * 2 ^ n = t / 2 ^ (n + 1) * 2 ^ (n + 1) + 2 ^ n := by
  have h0 : 0 < 2 ^ n := Nat.pos_pow_of_pos n (by norm_num)
  have hr : t % 2 ^ (n + 1) < 2 ^ (n + 1) :=
    Nat.mod_lt t (Nat.pos_pow_of_pos (n + 1) (by norm_num))
  have hrr : t % 2 ^ (n + 1) - 2 ^ n < 2 ^ n := by
    rw [pow_succ] at hr
    omega
  have hdiv : t / 2 ^ n = 2 * (t / 2 ^ (n + 1)) + t % 2 ^ (n + 1) / 2 ^ n := by
    conv_lhs => rw [block_decomp n t]
    rw [Nat.mul_add_div h0]
  have hone : t % 2 ^ (n + 1) / 2 ^ n = 1 := by
    rw [show t % 2 ^ (n + 1) = 2 ^ n * 1 + (t % 2 ^ (n + 1) - 2 ^ n) by omega]
    rw [Nat.mul_add_div h0, Nat.div_eq_of_lt hrr]
  rw [hdiv, hone, pow_succ]
  ring

lemma boundary_block_start (n t : ℕ) :
    (t / 2 ^ (n + 1) * 2 ^ (n + 1) + 2 ^ n - 1) / 2 ^ n * 2 ^ n =
      t / 2 ^ (n + 1) * 2 ^ (n + 1) := by
  have h0 : 0 < 2 ^ n := Nat.pos_pow_of_pos n (by norm_num)
  have hm : t / 2 ^ (n + 1) * 2 ^ (n + 1) + 2 ^ n - 1 =
      2 ^ n * (2 * (t / 2 ^ (n + 1))) + (2 ^ n - 1) := by
    rw [pow_succ]
    have e : t / (2 ^ n * 2) * (2 ^ n * 2) = 2 ^ n * (2 * (t / (2 ^ n * 2))) := by ring
    rw [e]
    omega
  rw [hm, Nat.mul_add_div h0, Nat.div_eq_of_lt (by omega : 2 ^ n - 1 < 2 ^ n)]
  rw [pow_succ]
  ring

end BlockArithmetic

section ClosedForm

variable {R : Type} [CommRing R]

lemma scanClosed_carry (lam : R) (mask : ℕ → Bool) (h0 : ℕ → R)
    (hmono : MonoMask mask) (b m t : ℕ) (hbm : b ≤ m) (hmt : m < t) :
    scanClosed lam mask h0 (m + 1) t +
      lam ^ (t - m) * scanClosed lam mask h0 b m * gate (mask m) =
    scanClosed lam mask h0 b t := by
  have hsplit : Finset.Ico b t = Finset.Ico b (m + 1) ∪ Finset.Ico (m + 1) t :=
    (Finset.Ico_union_Ico_eq_Ico (by omega) (by omega)).symm
  rcases hm : mask m with _ | _
  · rw [show (gate false : R) = 0 from rfl, mul_zero, add_zero, scanClosed, scanClosed, hsplit, Finset.filter_union,
      Finset.sum_union
        (Finset.disjoint_filter_filter (Finset.Ico_disjoint_Ico_consecutive b (m + 1) t))]
    have hempty : (Finset.Ico b (m + 1)).filter (fun j => mask j = true) = ∅ := by
      rw [Finset.filter_eq_empty_iff]
      intro j hj hmj
      simp only [Finset.mem_Ico] at hj
      have hc := hmono j m (by omega) hmj
      rw [hm] at hc
      exact Bool.noConfusion hc
    rw [hempty]
    simp
  · rw [show (gate true : R) = 1 from rfl, mul_one, scanClosed, scanClosed, scanClosed, hsplit, Finset.filter_union,
      Finset.sum_union
        (Finset.disjoint_filter_filter (Finset.Ico_disjoint_Ico_consecutive b (m + 1) t))]
    rw [Nat.Ico_succ_right_eq_insert_Ico hbm, Finset.filter_insert, if_pos hm,
      Finset.sum_insert (by simp)]
    have hrw : ∑ j ∈ (Finset.Ico b m).filter (fun j => mask j = true),
        lam ^ (t - j) * h0 j =
        lam ^ (t - m) *
          ∑ j ∈ (Finset.Ico b m).filter (fun j => mask j = true),
            lam ^ (m - j) * h0 j := by
      rw [Finset.mul_sum]
      refine Finset.sum_congr rfl fun j hj => ?_
      simp only [Finset.mem_filter, Finset.mem_Ico] at hj
      rw [← mul_assoc, ← pow_add]
      congr 2
      omega
    rw [hrw]
    ring

lemma lruScan_closed (lam : R) (h0 : ℕ → R) (mask : ℕ → Bool)
    (hmono : MonoMask mask) :
    ∀ n t, (lruScan n h0 [lam] mask).1 t =
      scanClosed lam mask h0 (t / 2 ^ n * 2 ^ n) t := by
  intro n
  induction n with
  | zero =>
    intro t
    simp [lruScan, scanClosed]
  | succ n ih =>
    intro t
    have hone : 1 ≤ 2 ^ n := Nat.one_le_two_pow
    have hBr : t / 2 ^ (n + 1) * 2 ^ (n + 1) + t % 2 ^ (n + 1) = t := by
      rw [mul_comm]
      exact Nat.div_add_mod t (2 ^ (n + 1))
    have hrlt : t % 2 ^ (n + 1) < 2 ^ (n + 1) :=
      Nat.mod_lt t (Nat.pos_pow_of_pos (n + 1) (by norm_num))
    have hpow : (2 : ℕ) ^ (n + 1) = 2 * 2 ^ n := by rw [pow_succ]; ring
    rw [lruScan_succ_fst, two_pow_succ_div_two]
    split
    · rename_i h
      rw [ih t, block_start_lt n t h]
    · rename_i h
      push_neg at h
      rw [ih t, ih (t / 2 ^ (n + 1) * 2 ^ (n + 1) + 2 ^ n - 1),
        block_start_ge n t h, boundary_block_start n t,
        scanLamb_powList lam (n + 1) (by omega),
        show n + 1 - 1 = n from rfl,
        powList_getD lam _ _ (by omega : t % 2 ^ (n + 1) - 2 ^ n < 2 ^ n)]
      have hstep := scanClosed_carry lam mask h0 hmono
        (t / 2 ^ (n + 1) * 2 ^ (n + 1)) (t / 2 ^ (n + 1) * 2 ^ (n + 1) + 2 ^ n - 1) t
        (by omega) (by omega)
      rw [show t / 2 ^ (n + 1) * 2 ^ (n + 1) + 2 ^ n - 1 + 1 =
            t / 2 ^ (n + 1) * 2 ^ (n + 1) + 2 ^ n by omega,
        show t - (t / 2 ^ (n + 1) * 2 ^ (n + 1) + 2 ^ n - 1) =
            t % 2 ^ (n + 1) - 2 ^ n + 1 by omega] at hstep
      exact hstep

lemma lruSeq_closed (lam : R) (mask : ℕ → Bool) (h0 : ℕ → R)
    (hmono : MonoMask mask) :
    ∀ t, lruSeq lam mask h0 t = scanClosed lam mask h0 0 t := by
  intro t
  induction t with
  | zero => simp [lruSeq, scanClosed]
  | succ t ih =>
    rw [lruSeq, ih]
    rcases hmt : mask t with _ | _
    · rw [show (gate false : R) = 0 from rfl, mul_zero, zero_add, scanClosed]
      have hempty : (Finset.Ico 0 (t + 1)).filter (fun j => mask j = true) = ∅ := by
        rw [Finset.filter_eq_empty_iff]
        intro j hj hmj
        simp only [Finset.mem_Ico] at hj
        have hc := hmono j t (by omega) hmj
        rw [hmt] at hc
        exact Bool.noConfusion hc
      rw [hempty]
      simp
    · rw [show (gate true : R) = 1 from rfl, mul_one, scanClosed, scanClosed,
        Nat.Ico_succ_right_eq_insert_Ico (Nat.zero_le t), Finset.filter_insert,
        if_pos hmt, Finset.sum_insert (by simp)]
      have hsum : ∑ j ∈ (Finset.Ico 0 t).filter (fun j => mask j = true),
          lam ^ (t + 1 - j) * h0 j =
          lam * ∑ j ∈ (Finset.Ico 0 t).filter (fun j => mask j = true),
            lam ^ (t - j) * h0 j := by
        rw [Finset.mul_sum]
        refine Finset.sum_congr rfl fun j hj => ?_
        simp only [Finset.mem_filter, Finset.mem_Ico] at hj
        rw [show t + 1 - j = t - j + 1 by omega, pow_succ]
        ring
      rw [hsum, show t + 1 - t = 1 by omega, pow_one]
      ring

end ClosedForm

/-- Claim C1, counterexample: with batch 1, one hidden channel, length
`L = 4`, eigenvalue `1/2`, driving input the impulse `(1, 0, 0, 0)` and the
non-left-padding validity mask `(valid, valid, invalid, valid)`, the
two-level parallel scan yields `1/8` at `t = 3` while the naive sequential
recurrence `s[t] = lambda * s[t-1] * valid[t-1] + h0[t]` yields `0` there:
the scan gates a carry only by the mask at the block boundary it crosses, so
a carry from the valid boundary `t = 1` reaches `t = 3` even though the
intermediate position `t = 2` is invalid. -/
theorem lruScan_ne_lruSeq_cex :
    (lruScan 2 (impulse : ℕ → ℂ) [(1 / 2 : ℂ)] maskCex).1 3 = 1 / 8 ∧
      lruSeq (1 / 2 : ℂ) maskCex (impulse : ℕ → ℂ) 3 = 0 ∧
      (1 / 8 : ℂ) ≠ 0 := by
  refine ⟨?_, ?_, by norm_num⟩
  · norm_num [lruScan, lru_parallel, extendLamb, gate, impulse, maskCex, List.getD]
  · norm_num [lruSeq, gate, impulse, maskCex]

/-- Claim C1 (amended): for every eigenvalue `lam`, every driving input `h0`
and every left-padding validity mask (valid positions upward closed, as
produced by the left padding in `LRUModel.forward`), running `lru_parallel`
for levels `1 .. n` yields, at every position `t < 2 ^ n`, exactly the naive
sequential recurrence `s[t] = lam * s[t-1] * valid[t-1] + h0[t]` with
`s[-1] = 0`, in the exact arithmetic of any commutative ring. -/
theorem lruScan_eq_lruSeq_of_monoMask {R : Type} [CommRing R] (lam : R)
    (h0 : ℕ → R) (mask : ℕ → Bool) (hmono : MonoMask mask) (n t : ℕ)
    (ht : t < 2 ^ n) :
    (lruScan n h0 [lam] mask).1 t = lruSeq lam mask h0 t := by
  rw [lruScan_closed lam h0 mask hmono n t, lruSeq_closed lam mask h0 hmono t,
    Nat.div_eq_of_lt ht, Nat.zero_mul]

/-- Witness for the amended claim C1 at the concrete instance `lam = 1/2`,
impulse input, two left-padded positions, `n = 2`, `t = 3`. -/
theorem lruScan_eq_lruSeq_of_monoMask_witness :
    (lruScan 2 (impulse : ℕ → ℚ) [(1 / 2 : ℚ)] maskPad2).1 3 =
      lruSeq (1 / 2 : ℚ) maskPad2 (impulse : ℕ → ℚ) 3 :=
  lruScan_eq_lruSeq_of_monoMask (1 / 2 : ℚ) impulse maskPad2
    (fun j k hjk hj => by
      simp only [maskPad2, decide_eq_true_eq] at hj ⊢
      omega)
    2 3 (by norm_num)

/-- Claim C2: for the same eigenvalue vector and mask, two driving inputs
that agree at every valid position produce identical scan outputs at every
valid position, for any number of levels: a value stored at an invalid
position never propagates, because every carry out of a position is gated by
the mask at that very position. -/
theorem lruScan_padding_invariance {R : Type} [CommRing R] (lamb0 : List R)
    (mask : ℕ → Bool) (n : ℕ) (a b : ℕ → R)
    (hab : ∀ t, mask t = true → a t = b t) :
    ∀ t, mask t = true →
      (lruScan n a lamb0 mask).1 t = (lruScan n b lamb0 mask).1 t :=
  lruScan_congr_on_valid n lamb0 mask a b hab

/-- Witness for claim C2 at the particular instance named by the claim:
`L = 4`, mask `(invalid, invalid, valid, valid)`, two inputs differing only
at the invalid positions `t = 0, 1`, identical outputs at the valid
positions `t = 2` and `t = 3`. -/
theorem lruScan_padding_invariance_witness :
    (lruScan 2 hJunkA [(1 / 2 : ℚ)] maskPad2).1 2 =
        (lruScan 2 hJunkB [(1 / 2 : ℚ)] maskPad2).1 2 ∧
      (lruScan 2 hJunkA [(1 / 2 : ℚ)] maskPad2).1 3 =
        (lruScan 2 hJunkB [(1 / 2 : ℚ)] maskPad2).1 3 := by
  have hab : ∀ t, maskPad2 t = true → hJunkA t = hJunkB t := by
    intro t ht
    simp only [maskPad2, decide_eq_true_eq] at ht
    simp [hJunkA, hJunkB, show t ≠ 0 by omega, show t ≠ 1 by omega]
  exact ⟨lruScan_padding_invariance [(1 / 2 : ℚ)] maskPad2 2 hJunkA hJunkB hab 2 rfl,
    lruScan_padding_invariance [(1 / 2 : ℚ)] maskPad2 2 hJunkA hJunkB hab 3 rfl⟩

/-- Claim C9: when every mask entry is false (an entirely padded sequence),
the scan returns the driving input unchanged at every position and every
level count: each carry is gated to zero. -/
theorem lruScan_all_false_mask {R : Type} [CommRing R] (n : ℕ) (h0 : ℕ → R)
    (lamb0 : List R) (mask : ℕ → Bool) (hm : ∀ t, mask t = false) (t : ℕ) :
    (lruScan n h0 lamb0 mask).1 t = h0 t :=
  lruScan_all_false_eq n h0 lamb0 mask hm t

/-- Witness for claim C9 at the concrete instance of the impulse input,
`n = 2`, `t = 3`. -/
theorem lruScan_all_false_mask_witness :
    (lruScan 2 (impulse : ℕ → ℚ) [(1 / 2 : ℚ)] (fun _ => false)).1 3 =
      (impulse : ℕ → ℚ) 3 :=
  lruScan_all_false_mask 2 impulse [(1 / 2 : ℚ)] (fun _ => false) (fun _ => rfl) 3

/-- Claim C10: for a fixed eigenvalue vector and a fixed validity mask, the
full masked scan is linear in the driving input, and in particular maps the
zero input to the zero output. -/
theorem lruScan_linearity {R : Type} [CommRing R] (n : ℕ) (lamb0 : List R)
    (mask : ℕ → Bool) :
    (∀ (p q : R) (a b : ℕ → R) (t : ℕ),
      (lruScan n (fun s => p * a s + q * b s) lamb0 mask).1 t =
        p * (lruScan n a lamb0 mask).1 t + q * (lruScan n b lamb0 mask).1 t) ∧
    (∀ t : ℕ, (lruScan n (fun _ => (0 : R)) lamb0 mask).1 t = 0) :=
  ⟨fun p q a b t => lruScan_linear n lamb0 mask p q a b t,
   fun t => lruScan_zero_input n lamb0 mask t⟩

/-- Claim C4: after running levels `1 .. i` (so at every scan level
`i >= 1`), the carried power vector `lamb` equals exactly
`[lam^1, lam^2, ..., lam^(2^(i-1))]`; the extension
`lamb ++ lamb * lamb[-1]` performed at level `i + 1` maps it to
`[lam^1, ..., lam^(2^i)]`, preserving the invariant; and entry `k` of the
vector, which weights the carry into offset `k` of the second half, is
`lam^(k+1)`. -/
theorem lamb_powers_invariant {R : Type} [CommRing R] (lam : R) (h0 : ℕ → R)
    (mask : ℕ → Bool) (i : ℕ) (hi : 1 ≤ i) :
    (lruScan i h0 [lam] mask).2 = powList lam (2 ^ (i - 1)) ∧
    extendLamb (i + 1) (powList lam (2 ^ (i - 1))) = powList lam (2 ^ i) ∧
    (∀ k, k < 2 ^ (i - 1) → (powList lam (2 ^ (i - 1))).getD k 0 = lam ^ (k + 1)) := by
  refine ⟨?_, ?_, fun k hk => powList_getD lam _ k hk⟩
  · rw [lruScan_snd]
    exact scanLamb_powList lam i hi
  · rw [extendLamb_powList lam (i + 1) _ (by omega) Nat.one_le_two_pow]
    congr 1
    rw [← pow_succ']
    congr 1
    omega

/-- Witness for claim C4 at the concrete instance `lam = 2` over the
rationals, level `i = 2`. -/
theorem lamb_powers_invariant_witness :
    (lruScan 2 (fun _ => (0 : ℚ)) [(2 : ℚ)] (fun _ => true)).2 =
        powList (2 : ℚ) (2 ^ (2 - 1)) ∧
      extendLamb 3 (powList (2 : ℚ) (2 ^ (2 - 1))) = powList (2 : ℚ) (2 ^ 2) ∧
      (∀ k, k < 2 ^ (2 - 1) →
        (powList (2 : ℚ) (2 ^ (2 - 1))).getD k 0 = (2 : ℚ) ^ (k + 1)) :=
  lamb_powers_invariant (2 : ℚ) (fun _ => 0) (fun _ => true) 2 (by norm_num)

/-- Claim C5: with batch 1, `L = 4`, `H = 2` channels carried as the product
ring `ℂ × ℂ`, eigenvalues `(0.5 + 0i, 0 + 0.5i)`, channel-0 input
`(1, 0, 0, 0)`, arbitrary channel-1 input and an all-valid mask, the
two-level parallel scan (segment 2, then segment 4) produces the channel-0
output `(1, 0.5, 0.25, 0.125)` exactly. -/
theorem lruScan_concrete_scenario (c : ℕ → ℂ) :
    ((lruScan 2 (h0Scenario c) [lamScenario] (fun _ => true)).1 0).1 = 1 ∧
    ((lruScan 2 (h0Scenario c) [lamScenario] (fun _ => true)).1 1).1 = 1 / 2 ∧
    ((lruScan 2 (h0Scenario c) [lamScenario] (fun _ => true)).1 2).1 = 1 / 4 ∧
    ((lruScan 2 (h0Scenario c) [lamScenario] (fun _ => true)).1 3).1 = 1 / 8 := by
  refine ⟨?_, ?_, ?_, ?_⟩ <;>
    norm_num [lruScan, lru_parallel, extendLamb, gate, h0Scenario, lamScenario,
      impulse, List.getD, Prod.fst_add, Prod.fst_mul]

/-- Claim C3: for every pair of uniform draws `u1, u2` in `[0, 1)` with
`r_min = 0.8` and `r_max = 0.99`, the derived eigenvalue of a channel
satisfies `|lambda|^2 = u1 * (r_max^2 - r_min^2) + r_min^2`, hence
`|lambda|` lies in `[r_min, r_max]` and strictly inside the unit disk, and
the phase equals `u2 * 2 * pi`, hence lies in `[0, 2 * pi)`. -/
theorem diag_lambda_init_spec (u1 u2 : ℝ) (h10 : 0 ≤ u1) (h11 : u1 < 1)
    (h20 : 0 ≤ u2) (h21 : u2 < 1) :
    Complex.abs (diag_lambda 0.8 0.99 u1 u2) ^ 2 =
        u1 * ((0.99 : ℝ) ^ 2 - 0.8 ^ 2) + 0.8 ^ 2 ∧
      (0.8 : ℝ) ≤ Complex.abs (diag_lambda 0.8 0.99 u1 u2) ∧
      Complex.abs (diag_lambda 0.8 0.99 u1 u2) ≤ 0.99 ∧
      Complex.abs (diag_lambda 0.8 0.99 u1 u2) < 1 ∧
      init_rotation u2 = u2 * (2 * Real.pi) ∧
      0 ≤ init_rotation u2 ∧ init_rotation u2 < 2 * Real.pi := by
  have hpi := Real.pi_pos
  have hipos : (0 : ℝ) < u1 * ((0.99 : ℝ) ^ 2 - 0.8 ^ 2) + 0.8 ^ 2 := by nlinarith
  have hilt : u1 * ((0.99 : ℝ) ^ 2 - 0.8 ^ 2) + 0.8 ^ 2 < 1 := by nlinarith
  have hige : (0.64 : ℝ) ≤ u1 * ((0.99 : ℝ) ^ 2 - 0.8 ^ 2) + 0.8 ^ 2 := by nlinarith
  have hiub : u1 * ((0.99 : ℝ) ^ 2 - 0.8 ^ 2) + 0.8 ^ 2 < 0.9801 := by nlinarith
  have hlogneg : Real.log (u1 * ((0.99 : ℝ) ^ 2 - 0.8 ^ 2) + 0.8 ^ 2) < 0 :=
    Real.log_neg hipos hilt
  have hexp : Real.exp (nu_log 0.8 0.99 u1) =
      -(0.5) * Real.log (u1 * ((0.99 : ℝ) ^ 2 - 0.8 ^ 2) + 0.8 ^ 2) := by
    rw [nu_log]
    exact Real.exp_log (by nlinarith)
  have habs : Complex.abs (diag_lambda 0.8 0.99 u1 u2) =
      Real.exp (-Real.exp (nu_log 0.8 0.99 u1)) := by
    rw [diag_lambda, Complex.abs_exp]
  have habs2 : Complex.abs (diag_lambda 0.8 0.99 u1 u2) ^ 2 =
      u1 * ((0.99 : ℝ) ^ 2 - 0.8 ^ 2) + 0.8 ^ 2 := by
    rw [habs, sq, ← Real.exp_add, hexp,
      show -(-(0.5 : ℝ) * Real.log (u1 * ((0.99 : ℝ) ^ 2 - 0.8 ^ 2) + 0.8 ^ 2)) +
          -(-(0.5) * Real.log (u1 * ((0.99 : ℝ) ^ 2 - 0.8 ^ 2) + 0.8 ^ 2)) =
          Real.log (u1 * ((0.99 : ℝ) ^ 2 - 0.8 ^ 2) + 0.8 ^ 2) by ring]
    exact Real.exp_log hipos
  have habspos : 0 ≤ Complex.abs (diag_lambda 0.8 0.99 u1 u2) := Complex.abs.nonneg _
  have hrot : init_rotation u2 = u2 * (2 * Real.pi) := by
    rw [init_rotation]
    rcases eq_or_lt_of_le h20 with h0 | h0
    · rw [if_pos (by rw [← h0]; ring), ← h0]
      ring
    · rw [if_neg (by positivity : (0 : ℝ) < u2 * Real.pi * 2).ne', theta_log,
        Real.exp_log (by positivity)]
      ring
  refine ⟨habs2, by nlinarith, by nlinarith, by nlinarith, hrot, ?_, ?_⟩
  · rw [hrot]
    nlinarith
  · rw [hrot]
    nlinarith

/-- Witness for claim C3 at the concrete draw `u1 = u2 = 1/2`. -/
theorem diag_lambda_init_spec_witness :
    Complex.abs (diag_lambda 0.8 0.99 (1 / 2) (1 / 2)) ^ 2 =
        (1 / 2 : ℝ) * ((0.99 : ℝ) ^ 2 - 0.8 ^ 2) + 0.8 ^ 2 ∧
      (0.8 : ℝ) ≤ Complex.abs (diag_lambda 0.8 0.99 (1 / 2) (1 / 2)) ∧
      Complex.abs (diag_lambda 0.8 0.99 (1 / 2) (1 / 2)) ≤ 0.99 ∧
      Complex.abs (diag_lambda 0.8 0.99 (1 / 2) (1 / 2)) < 1 ∧
      init_rotation (1 / 2) = (1 / 2 : ℝ) * (2 * Real.pi) ∧
      0 ≤ init_rotation (1 / 2 : ℝ) ∧ init_rotation (1 / 2 : ℝ) < 2 * Real.pi :=
  diag_lambda_init_spec (1 / 2) (1 / 2) (by norm_num) (by norm_num) (by norm_num)
    (by norm_num)

/-- Claim C8: for every real-valued setting of the trainable log-parameters,
not only the initialization-time values, the eigenvalue recomputed in
`LRULayer.forward` has modulus `exp(-exp(nu_log))`, which is strictly less
than `1`: the log-space parameterization itself enforces the stability
invariant after arbitrary gradient updates. -/
theorem forward_lambda_stable (nuLog thetaLog : ℝ) :
    Complex.abs (forward_lambda nuLog thetaLog) = Real.exp (-Real.exp nuLog) ∧
      Complex.abs (forward_lambda nuLog thetaLog) < 1 := by
  have habs : Complex.abs (forward_lambda nuLog thetaLog) =
      Real.exp (-Real.exp nuLog) := by
    rw [forward_lambda, Complex.abs_exp]
  refine ⟨habs, ?_⟩
  rw [habs]
  exact Real.exp_lt_one_iff.mpr (neg_lt_zero.mpr (Real.exp_pos _))

/-- Claim C6: left padding with `2 ^ ceil(log2 L) - L` zero positions
followed by truncation to the trailing `L` positions is the identity on the
value tensor, the padded mask is `[false] * pad ++ original mask`, and the
padding amount is zero exactly when `L` is already a power of two. -/
theorem padder_round_trip {α : Type} [Zero α] (v : List α) (m : List Bool)
    (_hv : 1 ≤ v.length) :
    truncSeq v.length (padSeq v) = v ∧
    padMask m = List.replicate (padLen m.length) false ++ m ∧
    (padLen v.length = 0 ↔ ∃ k, v.length = 2 ^ k) := by
  refine ⟨?_, rfl, ?_⟩
  · rw [truncSeq, padSeq]
    have hlen : (List.replicate (padLen v.length) (0 : α) ++ v).length =
        padLen v.length + v.length := by simp
    rw [hlen,
      show padLen v.length + v.length - v.length =
        (List.replicate (padLen v.length) (0 : α)).length by simp]
    exact List.drop_left _ _
  · constructor
    · intro h
      refine ⟨Nat.clog 2 v.length, ?_⟩
      have hle := Nat.le_pow_clog (by norm_num : 1 < 2) v.length
      rw [padLen] at h
      omega
    · rintro ⟨k, hk⟩
      rw [padLen, hk, Nat.clog_pow 2 k (by norm_num)]
      omega

/-- Witness for claim C6 at the concrete length-3 input `(1, 2, 3)` (padding
amount 1) with mask `(true, true, false)`. -/
theorem padder_round_trip_witness :
    truncSeq 3 (padSeq [(1 : ℚ), 2, 3]) = [(1 : ℚ), 2, 3] ∧
    padMask [true, true, false] =
      List.replicate (padLen 3) false ++ [true, true, false] ∧
    (padLen 3 = 0 ↔ ∃ k, (3 : ℕ) = 2 ^ k) :=
  padder_round_trip [(1 : ℚ), 2, 3] [true, true, false] (by norm_num)

/-- Claim C7: `LRULayer.forward` computes, in order, the complex input
projection to width `H`, the scaling by the gain `exp(gamma_log)`, the
masked parallel scan, the real part of the output projection back to model
width, dropout, the addition of a residual taken from the layer input `x`
itself (which the layer neither pads nor projects), and finally layer
normalization of the sum. -/
theorem LRULayer_forward_pipeline (d H : ℕ) (params_log : Fin 3 → Fin H → ℝ)
    (in_proj : (Fin d → ℂ) → Fin H → ℂ) (out_proj : (Fin H → ℂ) → Fin d → ℂ)
    (dropout layer_norm : (ℕ → Fin d → ℝ) → ℕ → Fin d → ℝ)
    (n : ℕ) (x : ℕ → Fin d → ℝ) (mask : ℕ → Bool) :
    LRULayer_forward d H params_log in_proj out_proj dropout layer_norm n x mask =
      layer_norm (fun t j =>
        dropout (fun s i =>
          (out_proj ((lruScan n
              (fun u c => in_proj (fun j2 => (x u j2 : ℂ)) c *
                (Real.exp (params_log 2 c) : ℂ))
              [fun c => forward_lambda (params_log 0 c) (params_log 1 c)]
              mask).1 s) i).re) t j + x t j) := rfl

end LRURec
